import Mathlib

/-!
Verification development for the video-duplicate-finder repository.

The Python sources under `utils/` are shallowly embedded below:
  * `utils/images.py`      : thresholds, `is_similar_img`, `is_identical_img`,
    the `HashComputer` mode selection (`func_factory`, `HashComputer_mode`);
  * `utils/image_compare.py` and `utils/video_compare.py` : comparison objects,
    `visual_compare_image`, `visual_compare_video`, and the (textually
    identical, up to the pairwise predicate) `mark_groups` grouping pass;
  * `utils/safe_counter.py` : the counter is a `Nat` threaded through
    `mark_groups`; `get_int` returns the incremented value (first call is 1);
  * `utils/files.py`       : `atoi`, `natural_keys`, `sort_path_naturally`.

An `imagehash.ImageHash` value is embedded as a bit vector `List Bool`;
`ImageHash.__sub__` counts differing positions of the two flattened bit
arrays, which `image_hash_diff` reproduces.
-/

/-- A perceptual-hash fingerprint: the flattened bit array of an
`imagehash.ImageHash` value. -/
abbrev Fingerprint := List Bool

/-- Constant `HASH_SIZE = 8` from `utils/images.py`. -/
def HASH_SIZE : Nat := 8

/-- Constant `IDENTICAL_THRESHOLD = 1` from `utils/images.py`. -/
def IDENTICAL_THRESHOLD : Nat := 1

/-- Constant `SIMILAR_THRESHOLD = 2` from `utils/images.py`. -/
def SIMILAR_THRESHOLD : Nat := 2

/-- Difference `a.get_hash() - b.get_hash()` for two `imagehash.ImageHash` values:
numpy counts the positions at which the flattened bit arrays differ
(`count_nonzero(hash1.flatten() != hash2.flatten())`), returned as an
integer. -/
def image_hash_diff (a b : Fingerprint) : Int :=
  ((a.zip b).countP (fun p => !(p.1 == p.2)) : Nat)

/-- Predicate `is_similar_img` from `utils/images.py`:
`abs(a.get_hash() - b.get_hash()) < SIMILAR_THRESHOLD`. -/
def is_similar_img (a b : Fingerprint) : Bool :=
  (image_hash_diff a b).natAbs < SIMILAR_THRESHOLD

/-- Predicate `is_identical_img` from `utils/images.py`:
`abs(a.get_hash() - b.get_hash()) < IDENTICAL_THRESHOLD`. -/
def is_identical_img (a b : Fingerprint) : Bool :=
  (image_hash_diff a b).natAbs < IDENTICAL_THRESHOLD

/-- Specification-side Hamming distance: the number of positions, below the
length of the shorter vector, at which the two bit vectors differ. -/
def hammingDistance (a b : Fingerprint) : Nat :=
  ((List.range (min a.length b.length)).filter
    (fun i => a.getD i false ≠ b.getD i false)).length

/-- Common shape of `ImageComparisonObject` (`utils/image_compare.py`) and
`VideoComparisonObject` (`utils/video_compare.py`): a file path (the unique
key), the hashed payload (`hashed_img` resp. `hashed_imgs`, stored in the
field `data`), and a mutable `group_number` initialized to 0. -/
structure CompObj (α : Type) where
  file_path : String
  data : α
  group_number : Nat
deriving DecidableEq

/-- Type `ImageComparisonObject`: `hashed_img : Optional[HashableImage]`. -/
abbrev ImageComparisonObject := CompObj (Option Fingerprint)

/-- Type `VideoComparisonObject`: `hashed_imgs : List[HashableImage]`. -/
abbrev VideoComparisonObject := CompObj (List Fingerprint)

/-- Body of `visual_compare_image`, as a function of the two `hashed_img`
payloads: `None` on either side gives `False`, otherwise `is_similar_img`. -/
def image_sim (x y : Option Fingerprint) : Bool :=
  match x, y with
  | some a, some b => is_similar_img a b
  | _, _ => false

/-- Function `visual_compare_image` from `utils/image_compare.py` (it reads only the
`hashed_img` fields of its two arguments). -/
def visual_compare_image (a b : ImageComparisonObject) : Bool :=
  image_sim a.data b.data

/-- Body of `visual_compare_video`, as a function of the two `hashed_imgs`
payloads: `False` when either sequence is empty, otherwise the conjunction
of `is_similar_img` over the zipped (shorter-length) positional pairs
(the `same_flags` list followed by `all(same_flags)`). -/
def video_sim (x y : List Fingerprint) : Bool :=
  if x.length = 0 ∨ y.length = 0 then false
  else ((x.zip y).map (fun p => is_similar_img p.1 p.2)).all id

/-- Function `visual_compare_video` from `utils/video_compare.py` (it reads only the
`hashed_imgs` fields of its two arguments). -/
def visual_compare_video (a b : VideoComparisonObject) : Bool :=
  video_sim a.data b.data

/-- Inner loop of `mark_groups` (`for idx2, item2 in enumerate(a[idx+1:])`):
`item` is the current outer item (the Python object reference `item`, whose
`group_number` mutation is threaded through), the list argument is the
remaining slice, and the `Nat` is the `SafeCounter` value (its `get_int`
returns the incremented value, so a fresh id is `c + 1`).  Returns the
updated outer item, the updated slice, and the updated counter. -/
def innerLoop (sim : α → α → Bool) :
    CompObj α → List (CompObj α) → Nat → CompObj α × List (CompObj α) × Nat
  | item, [], c => (item, [], c)
  | item, x :: xs, c =>
    if 0 < x.group_number then
      let r := innerLoop sim item xs c
      (r.1, x :: r.2.1, r.2.2)
    else if sim item.data x.data then
      if item.group_number = 0 then
        let r := innerLoop sim { item with group_number := c + 1 } xs (c + 1)
        (r.1, { x with group_number := c + 1 } :: r.2.1, r.2.2)
      else
        let r := innerLoop sim item xs c
        (r.1, { x with group_number := item.group_number } :: r.2.1, r.2.2)
    else
      let r := innerLoop sim item xs c
      (r.1, x :: r.2.1, r.2.2)

/-- Outer loop of `mark_groups` (`for idx, item in enumerate(a)` with
`break` at `idx == len(a) - 1` and `continue` on already-grouped items).
The `Nat` fuel is the length of the list at the top-level call; each
iteration consumes one element, and the inner pass preserves the length of
the remaining slice, so the fuel-0 case is never reached from
`mark_groups`. -/
def outerLoop (sim : α → α → Bool) :
    Nat → List (CompObj α) → Nat → List (CompObj α) × Nat
  | 0, l, c => (l, c)
  | _ + 1, [], c => ([], c)
  | _ + 1, [x], c => ([x], c)
  | n + 1, x :: y :: ys, c =>
    if 0 < x.group_number then
      let r := outerLoop sim n (y :: ys) c
      (x :: r.1, r.2)
    else
      let r1 := innerLoop sim x (y :: ys) c
      let r2 := outerLoop sim n r1.2.1 r1.2.2
      (r1.1 :: r2.1, r2.2)

/-- Function `mark_groups` from `utils/image_compare.py` / `utils/video_compare.py`
(the two are textually identical up to the pairwise predicate, which is
passed here as `sim`, a function of the two hashed payloads).  Returns the
updated list together with the final `SafeCounter` value. -/
def mark_groups (sim : α → α → Bool) (a : List (CompObj α)) (counter : Nat) :
    List (CompObj α) × Nat :=
  outerLoop sim a.length a counter

/-- Image instantiation: `mark_groups` of `utils/image_compare.py`, whose
pairwise test is `visual_compare_image`. -/
def image_mark_groups (a : List ImageComparisonObject) (counter : Nat) :
    List ImageComparisonObject × Nat :=
  mark_groups image_sim a counter

/-- Video instantiation: `mark_groups` of `utils/video_compare.py`, whose
pairwise test is `visual_compare_video`. -/
def video_mark_groups (a : List VideoComparisonObject) (counter : Nat) :
    List VideoComparisonObject × Nat :=
  mark_groups video_sim a counter

/-- One entry of the list produced by `natural_keys` in `utils/files.py`:
Python's `atoi` returns either an `int` (a digit run) or the `str` itself. -/
inductive PyKey where
  | i : Nat → PyKey
  | s : String → PyKey
deriving DecidableEq

/-- Value of `int(text)` for a string of ASCII digits. -/
def digitsToNat (cs : List Char) : Nat :=
  cs.foldl (fun acc c => acc * 10 + (c.toNat - '0'.toNat)) 0

/-- Function `atoi` from `utils/files.py`: `int(text) if text.isdigit() else text`
(`str.isdigit` is true exactly for a non-empty all-digit string). -/
def atoi (t : String) : PyKey :=
  if t.data ≠ [] ∧ t.data.all Char.isDigit then .i (digitsToNat t.data) else .s t

/-- Maximal runs of a character list, each tagged with whether it is a digit
run; adjacent characters of the same kind are merged. -/
def runSplit : List Char → List (Bool × List Char)
  | [] => []
  | c :: cs =>
    match runSplit cs with
    | [] => [(c.isDigit, [c])]
    | (d, run) :: t =>
      if c.isDigit = d then (d, c :: run) :: t
      else (c.isDigit, [c]) :: (d, run) :: t

/-- Pad a run list so that it starts and ends with a (possibly empty) text
run, as `re.split` with a capturing group does. -/
def padRuns (rs : List (Bool × List Char)) : List (Bool × List Char) :=
  let rs1 := match rs with
    | (true, _) :: _ => (false, []) :: rs
    | _ => rs
  match rs1.getLast? with
  | some (true, _) => rs1 ++ [(false, [])]
  | _ => rs1

/-- Python's `re.split(r'(\d+)', text)`: the maximal digit runs are kept
(capturing group), and the result alternates text chunk / digit run /
text chunk / ..., with empty text chunks at the ends when the string starts
or ends with a digit, and `[""]` for the empty string. -/
def re_split_digits (t : String) : List String :=
  match padRuns (runSplit t.data) with
  | [] => [""]
  | rs => rs.map (fun p => String.mk p.2)

/-- Function `natural_keys` from `utils/files.py`:
`[atoi(c) for c in re.split(r'(\d+)', text)]`. -/
def natural_keys (text : String) : List PyKey :=
  (re_split_digits text).map atoi

/-- Split a character list on a separator character (empty chunks kept). -/
def splitOnChar (sep : Char) : List Char → List (List Char)
  | [] => [[]]
  | c :: cs =>
    match splitOnChar sep cs with
    | [] => [[c]]
    | h :: t => if c = sep then [] :: h :: t else (c :: h) :: t

/-- Value of `list(Path(p).parts)` for a relative POSIX path: the non-empty
components of the path split on the separator. -/
def parts (p : String) : List String :=
  ((splitOnChar '/' p.data).map String.mk).filter (fun s => s ≠ "")

/-- Value of `Path(filename).stem`: the final component without its suffix.  As in
`pathlib`, a suffix exists only when the last dot of the name is at a
position `i` with `0 < i < len - 1`. -/
def stem (name : String) : String :=
  let cs := name.data
  match ((List.range cs.length).filter (fun i => cs.getD i ' ' = '.')).getLast? with
  | some i => if 0 < i ∧ i < cs.length - 1 then String.mk (cs.take i) else name
  | none => name

/-- The `if sections:` block of `sort_path_naturally`: replace the last
section (the filename) by its stem; an empty section list stays empty. -/
def replaceLastWithStem : List String → List String
  | [] => []
  | [x] => [stem x]
  | x :: xs => x :: replaceLastWithStem xs

/-- The tokenized key of one path in `sort_path_naturally`: the
concatenation of `natural_keys(section)` over the sections (suffix removed
from the last one). -/
def path_keys (p : String) : List PyKey :=
  ((replaceLastWithStem (parts p)).map natural_keys).flatten

/-- Python string `<`: lexicographic comparison of the code points. -/
def charListLt : List Char → List Char → Bool
  | _, [] => false
  | [], _ :: _ => true
  | c :: cs, d :: ds =>
    if c < d then true else if c = d then charListLt cs ds else false

/-- Python `<` on the entries of a `natural_keys` list.  CPython raises
`TypeError` when an `int` is compared with a `str`; that case is totalized
here (it is exercised by none of the theorems below). -/
def pyKeyLt : PyKey → PyKey → Bool
  | .i m, .i n => m < n
  | .s s, .s t => charListLt s.data t.data
  | .i _, .s _ => true
  | .s _, .i _ => false

/-- Python `<` on two key lists: lexicographic, the first non-equal pair
decides, a strict prefix is smaller. -/
def pyKeyListLt : List PyKey → List PyKey → Bool
  | _, [] => false
  | [], _ :: _ => true
  | a :: as, b :: bs =>
    if pyKeyLt a b then true else if a = b then pyKeyListLt as bs else false

/-- Insert an element into an already-sorted accumulator, after every
element it is not strictly smaller than (the stable position). -/
def sinsert (lt : α → α → Bool) (x : α) : List α → List α
  | [] => [x]
  | y :: ys => if lt x y then x :: y :: ys else y :: sinsert lt x ys

/-- Python's `sorted`, modeled as a stable insertion sort: same
specification (stable, ordered under the strict comparison `lt`). -/
def pySorted (lt : α → α → Bool) (l : List α) : List α :=
  l.foldl (fun acc x => sinsert lt x acc) []

/-- Function `sort_path_naturally` from `utils/files.py`: build the key list of each
path, zip keys with paths, sort by the keys only
(`sorted(to_be_sorted, key=lambda x: x[0])`), and return the paths. -/
def sort_path_naturally (paths : List String) : List String :=
  let aparted_paths := paths.map path_keys
  let to_be_sorted := aparted_paths.zip paths
  let sorted_list := pySorted (fun x y => pyKeyListLt x.1 y.1) to_be_sorted
  sorted_list.map (fun x => x.2)

/-- Python's `str.lower()` (character-wise lowercasing). -/
def pyLower (s : String) : String := String.mk (s.data.map Char.toLower)

/-- Dictionary `_func_factory` from `utils/images.py`: the mode dictionary.  The two
hash algorithms are external library calls (`imagehash.average_hash`,
`imagehash.phash`), so they are parameters here. -/
def func_factory {Img Hash : Type} (ahash phash : Img → Hash) :
    List (String × (Img → Hash)) :=
  [("ahash", ahash), ("phash", phash)]

/-- Selection logic of `HashComputer.__init__` from `utils/images.py`: look the lower-cased
selector up in the mode dictionary; an unknown selector silently selects
`ahash` (the default), raising no error. -/
def HashComputer_mode {Img Hash : Type} (ahash phash : Img → Hash)
    (mode : String) : Img → Hash :=
  match (func_factory ahash phash).lookup (pyLower mode) with
  | some f => f
  | none => ahash

/-- Method `HashComputer.compute`: apply the selected mode to the image. -/
def HashComputer_compute {Img Hash : Type} (m : Img → Hash) (img : Img) : Hash :=
  m img

theorem image_hash_diff_eq_hamming (a b : Fingerprint) :
    image_hash_diff a b = (hammingDistance a b : Int) := by
  suffices h : (a.zip b).countP (fun p => !(p.1 == p.2)) = hammingDistance a b by
    simp [image_hash_diff, h]
  induction a generalizing b with
  | nil => simp [hammingDistance]
  | cons x xs ih =>
    cases b with
    | nil => simp [hammingDistance]
    | cons y ys =>
      have hzip : List.countP (fun p => !(p.1 == p.2)) ((x :: xs).zip (y :: ys))
          = List.countP (fun p => !(p.1 == p.2)) (xs.zip ys)
            + (if x = y then 0 else 1) := by
        by_cases hxy : x = y <;> simp [List.countP_cons, hxy]
      have hmin : (xs.length + 1) ⊓ (ys.length + 1) = (xs.length ⊓ ys.length) + 1 :=
        Nat.succ_min_succ _ _
      have hham : hammingDistance (x :: xs) (y :: ys)
          = hammingDistance xs ys + (if x = y then 0 else 1) := by
        by_cases hxy : x = y <;>
          simp [hammingDistance, hmin, List.range_succ_eq_map, List.filter_cons,
            List.filter_map, Function.comp_def, hxy, Nat.add_comm]
      rw [hzip, hham, ih ys]

theorem innerLoop_counter_le (sim : α → α → Bool) (item : CompObj α)
    (xs : List (CompObj α)) (c : Nat) : c ≤ (innerLoop sim item xs c).2.2 := by
  induction xs generalizing item c with
  | nil => simp [innerLoop]
  | cons x xs ih =>
    simp only [innerLoop]
    split_ifs with h1 h2 h3
    · simpa using ih item c
    · simpa using Nat.le_trans (Nat.le_succ c) (ih _ (c + 1))
    · simpa using ih item c
    · simpa using ih item c

theorem innerLoop_strip (sim : α → α → Bool) (item : CompObj α)
    (xs : List (CompObj α)) (c : Nat) :
    (innerLoop sim item xs c).1.file_path = item.file_path ∧
    (innerLoop sim item xs c).1.data = item.data ∧
    (innerLoop sim item xs c).2.1.map (fun x => (x.file_path, x.data))
      = xs.map (fun x => (x.file_path, x.data)) := by
  induction xs generalizing item c with
  | nil => simp [innerLoop]
  | cons x xs ih =>
    simp only [innerLoop]
    split_ifs with h1 h2 h3
    · simpa using ih item c
    · simpa using ih { item with group_number := c + 1 } (c + 1)
    · simpa using ih item c
    · simpa using ih item c

theorem innerLoop_bound (sim : α → α → Bool) (item : CompObj α)
    (xs : List (CompObj α)) (c : Nat)
    (hitem : item.group_number ≤ c) (hxs : ∀ x ∈ xs, x.group_number ≤ c) :
    (innerLoop sim item xs c).1.group_number ≤ (innerLoop sim item xs c).2.2 ∧
    ∀ x ∈ (innerLoop sim item xs c).2.1,
      x.group_number ≤ (innerLoop sim item xs c).2.2 := by
  induction xs generalizing item c with
  | nil => simpa [innerLoop] using hitem
  | cons x xs ih =>
    have hx := hxs x (by simp)
    have hxs' : ∀ z ∈ xs, z.group_number ≤ c := fun z hz => hxs z (by simp [hz])
    simp only [innerLoop]
    split_ifs with h1 h2 h3
    · have h := ih item c hitem hxs'
      have hcle := innerLoop_counter_le sim item xs c
      simp only []
      refine ⟨h.1, ?_⟩
      intro z hz
      simp only [List.mem_cons] at hz
      rcases hz with rfl | hz
      · exact Nat.le_trans hx hcle
      · exact h.2 z hz
    · have h := ih { item with group_number := c + 1 } (c + 1) (by simp)
        (fun z hz => Nat.le_trans (hxs' z hz) (Nat.le_succ c))
      have hcle := innerLoop_counter_le sim { item with group_number := c + 1 } xs (c + 1)
      refine ⟨h.1, ?_⟩
      intro z hz
      simp only [List.mem_cons] at hz
      rcases hz with rfl | hz
      · exact hcle
      · exact h.2 z hz
    · have h := ih item c hitem hxs'
      have hcle := innerLoop_counter_le sim item xs c
      refine ⟨h.1, ?_⟩
      intro z hz
      simp only [List.mem_cons] at hz
      rcases hz with rfl | hz
      · exact Nat.le_trans hitem hcle
      · exact h.2 z hz
    · have h := ih item c hitem hxs'
      have hcle := innerLoop_counter_le sim item xs c
      refine ⟨h.1, ?_⟩
      intro z hz
      simp only [List.mem_cons] at hz
      rcases hz with rfl | hz
      · exact Nat.le_trans hx hcle
      · exact h.2 z hz

theorem innerLoop_countP_le (sim : α → α → Bool) (item : CompObj α)
    (xs : List (CompObj α)) (c : Nat) (g : Nat) (hg : 0 < g) :
    List.countP (fun z => z.group_number == g) (item :: xs)
      ≤ List.countP (fun z => z.group_number == g)
          ((innerLoop sim item xs c).1 :: (innerLoop sim item xs c).2.1) := by
  induction xs generalizing item c with
  | nil => simp [innerLoop]
  | cons x xs ih =>
    simp only [innerLoop]
    split_ifs with h1 h2 h3
    · have h := ih item c
      simp only [List.countP_cons] at h ⊢
      omega
    · have hx0 : x.group_number = 0 := Nat.eq_zero_of_not_pos h1
      have hg0 : (0 == g) = false := beq_eq_false_iff_ne.mpr (Nat.ne_of_lt hg)
      have h := ih { item with group_number := c + 1 } (c + 1)
      simp [List.countP_cons, hx0, h3, hg0] at h ⊢
      omega
    · have hx0 : x.group_number = 0 := Nat.eq_zero_of_not_pos h1
      have hg0 : (0 == g) = false := beq_eq_false_iff_ne.mpr (Nat.ne_of_lt hg)
      have h := ih item c
      simp [List.countP_cons, hx0, hg0] at h ⊢
      omega
    · have h := ih item c
      simp only [List.countP_cons] at h ⊢
      omega

theorem innerLoop_new_groups (sim : α → α → Bool) (item : CompObj α)
    (xs : List (CompObj α)) (c : Nat)
    (hitem : item.group_number ≤ c) (hxs : ∀ x ∈ xs, x.group_number ≤ c)
    (g : Nat) (hgl : c < g) (hgu : g ≤ (innerLoop sim item xs c).2.2) :
    2 ≤ List.countP (fun z => z.group_number == g)
          ((innerLoop sim item xs c).1 :: (innerLoop sim item xs c).2.1) := by
  induction xs generalizing item c with
  | nil =>
    simp only [innerLoop] at hgu
    omega
  | cons x xs ih =>
    have hx := hxs x (by simp)
    have hxs' : ∀ z ∈ xs, z.group_number ≤ c := fun z hz => hxs z (by simp [hz])
    simp only [innerLoop] at hgu ⊢
    split_ifs at hgu ⊢ with h1 h2 h3
    · have h := ih item c hitem hxs' hgl (by simpa using hgu)
      simp only [List.countP_cons] at h ⊢
      omega
    · rcases Nat.lt_or_ge (c + 1) g with hc1 | hc1
      · have h := ih { item with group_number := c + 1 } (c + 1) (by simp)
          (fun z hz => Nat.le_trans (hxs' z hz) (Nat.le_succ c)) hc1
          (by simpa using hgu)
        simp only [List.countP_cons] at h ⊢
        omega
      · have hgc : g = c + 1 := by omega
        have hmono := innerLoop_countP_le sim { item with group_number := c + 1 }
          xs (c + 1) g (by omega)
        have hhead : ({ item with group_number := c + 1 } :
            CompObj α).group_number == g := by simp [hgc]
        simp only [List.countP_cons, hhead, hgc] at hmono ⊢
        simp at hmono ⊢
        omega
    · have h := ih item c hitem hxs' hgl (by simpa using hgu)
      simp only [List.countP_cons] at h ⊢
      omega
    · have h := ih item c hitem hxs' hgl (by simpa using hgu)
      simp only [List.countP_cons] at h ⊢
      omega

theorem outerLoop_counter_le (sim : α → α → Bool) (n : Nat)
    (l : List (CompObj α)) (c : Nat) : c ≤ (outerLoop sim n l c).2 := by
  induction n generalizing l c with
  | zero => simp [outerLoop]
  | succ n ih =>
    cases l with
    | nil => simp [outerLoop]
    | cons x l' =>
      cases l' with
      | nil => simp [outerLoop]
      | cons y ys =>
        simp only [outerLoop]
        split_ifs with h1
        · simpa using ih (y :: ys) c
        · have ha := innerLoop_counter_le sim x (y :: ys) c
          have hb := ih (innerLoop sim x (y :: ys) c).2.1
            (innerLoop sim x (y :: ys) c).2.2
          simpa using Nat.le_trans ha hb

theorem outerLoop_strip (sim : α → α → Bool) (n : Nat)
    (l : List (CompObj α)) (c : Nat) :
    (outerLoop sim n l c).1.map (fun x => (x.file_path, x.data))
      = l.map (fun x => (x.file_path, x.data)) := by
  induction n generalizing l c with
  | zero => simp [outerLoop]
  | succ n ih =>
    cases l with
    | nil => simp [outerLoop]
    | cons x l' =>
      cases l' with
      | nil => simp [outerLoop]
      | cons y ys =>
        simp only [outerLoop]
        split_ifs with h1
        · simpa using ih (y :: ys) c
        · have ha := innerLoop_strip sim x (y :: ys) c
          have hb := ih (innerLoop sim x (y :: ys) c).2.1
            (innerLoop sim x (y :: ys) c).2.2
          simp only [List.map_cons] at *
          simp [ha.1, ha.2.1, hb, ha.2.2]

theorem outerLoop_bound (sim : α → α → Bool) (n : Nat)
    (l : List (CompObj α)) (c : Nat) (hl : ∀ x ∈ l, x.group_number ≤ c) :
    ∀ x ∈ (outerLoop sim n l c).1, x.group_number ≤ (outerLoop sim n l c).2 := by
  induction n generalizing l c with
  | zero => simpa [outerLoop] using hl
  | succ n ih =>
    cases l with
    | nil => simp [outerLoop]
    | cons x l' =>
      cases l' with
      | nil => simpa [outerLoop] using hl x (by simp)
      | cons y ys =>
        have hx := hl x (by simp)
        have hl' : ∀ z ∈ y :: ys, z.group_number ≤ c :=
          fun z hz => hl z (by simp [List.mem_cons] at hz ⊢; tauto)
        simp only [outerLoop]
        split_ifs with h1
        · have h := ih (y :: ys) c hl'
          have hcle := outerLoop_counter_le sim n (y :: ys) c
          intro z hz
          simp only [List.mem_cons] at hz
          rcases hz with rfl | hz
          · simpa using Nat.le_trans hx hcle
          · simpa using h z (by simpa using hz)
        · have hin := innerLoop_bound sim x (y :: ys) c hx hl'
          have h := ih (innerLoop sim x (y :: ys) c).2.1
            (innerLoop sim x (y :: ys) c).2.2 hin.2
          have hcle := outerLoop_counter_le sim n (innerLoop sim x (y :: ys) c).2.1
            (innerLoop sim x (y :: ys) c).2.2
          intro z hz
          simp only [List.mem_cons] at hz
          rcases hz with rfl | hz
          · simpa using Nat.le_trans hin.1 hcle
          · simpa using h z (by simpa using hz)

theorem outerLoop_countP_le (sim : α → α → Bool) (n : Nat)
    (l : List (CompObj α)) (c : Nat) (g : Nat) (hg : 0 < g) :
    List.countP (fun z => z.group_number == g) l
      ≤ List.countP (fun z => z.group_number == g) (outerLoop sim n l c).1 := by
  induction n generalizing l c with
  | zero => simp [outerLoop]
  | succ n ih =>
    cases l with
    | nil => simp [outerLoop]
    | cons x l' =>
      cases l' with
      | nil => simp [outerLoop]
      | cons y ys =>
        simp only [outerLoop]
        split_ifs with h1
        · have h := ih (y :: ys) c
          simp only [List.countP_cons] at h ⊢
          omega
        · have ha := innerLoop_countP_le sim x (y :: ys) c g hg
          have hb := ih (innerLoop sim x (y :: ys) c).2.1
            (innerLoop sim x (y :: ys) c).2.2
          simp only [List.countP_cons] at ha hb ⊢
          omega

theorem outerLoop_new_groups (sim : α → α → Bool) (n : Nat)
    (l : List (CompObj α)) (c : Nat) (hl : ∀ x ∈ l, x.group_number ≤ c)
    (g : Nat) (hgl : c < g) (hgu : g ≤ (outerLoop sim n l c).2) :
    2 ≤ List.countP (fun z => z.group_number == g) (outerLoop sim n l c).1 := by
  induction n generalizing l c with
  | zero =>
    simp only [outerLoop] at hgu
    omega
  | succ n ih =>
    cases l with
    | nil =>
      simp only [outerLoop] at hgu
      omega
    | cons x l' =>
      cases l' with
      | nil =>
        simp only [outerLoop] at hgu
        omega
      | cons y ys =>
        have hx := hl x (by simp)
        have hl' : ∀ z ∈ y :: ys, z.group_number ≤ c :=
          fun z hz => hl z (by simp [List.mem_cons] at hz ⊢; tauto)
        simp only [outerLoop] at hgu ⊢
        split_ifs at hgu ⊢ with h1
        · have h := ih (y :: ys) c hl' hgl (by simpa using hgu)
          simp only [List.countP_cons] at h ⊢
          omega
        · rcases Nat.lt_or_ge (innerLoop sim x (y :: ys) c).2.2 g with hc1 | hc1
          · have hin := innerLoop_bound sim x (y :: ys) c hx hl'
            have h := ih (innerLoop sim x (y :: ys) c).2.1
              (innerLoop sim x (y :: ys) c).2.2 hin.2 hc1 (by simpa using hgu)
            simp only [List.countP_cons] at h ⊢
            omega
          · have hin := innerLoop_new_groups sim x (y :: ys) c hx hl' g hgl hc1
            have hb := outerLoop_countP_le sim n (innerLoop sim x (y :: ys) c).2.1
              (innerLoop sim x (y :: ys) c).2.2 g (by omega)
            simp only [List.countP_cons] at hin hb ⊢
            omega

/-- C1: for three comparable items [A,B,C] in scan order, all with
`group_number` 0, where the pairwise predicate holds for (A,B) and (B,C)
but not for (A,C), `mark_groups` gives A and B one shared positive group
number and leaves C with `group_number` 0 — no transitive merge through B. -/
theorem mark_groups_no_transitive_merge {α : Type} (sim : α → α → Bool)
    (fpA fpB fpC : String) (dA dB dC : α) (c : Nat)
    (hAB : sim dA dB = true) (hBC : sim dB dC = true) (hAC : sim dA dC = false) :
    ∃ g, 0 < g ∧
      (mark_groups sim [⟨fpA, dA, 0⟩, ⟨fpB, dB, 0⟩, ⟨fpC, dC, 0⟩] c).1.map
        (fun x => x.group_number) = [g, g, 0] := by
  refine ⟨c + 1, Nat.succ_pos c, ?_⟩
  simp [mark_groups, outerLoop, innerLoop, hAB, hAC]

theorem mark_groups_no_transitive_merge_witness :
    ∃ g, 0 < g ∧
      (mark_groups image_sim [⟨"A", some [false, false], 0⟩,
          ⟨"B", some [false, true], 0⟩, ⟨"C", some [true, true], 0⟩] 0).1.map
        (fun x => x.group_number) = [g, g, 0] :=
  mark_groups_no_transitive_merge image_sim "A" "B" "C"
    (some [false, false]) (some [false, true]) (some [true, true]) 0
    (by decide) (by decide) (by decide)

/-- C2: for three comparable items [A,B,C] in scan order, all with
`group_number` 0, where A is similar to B and to C but B is not similar to
C, `mark_groups` gives all three the group number allocated when A (the
first item in scan order) anchors the group. -/
theorem mark_groups_anchor_groups_all_three {α : Type} (sim : α → α → Bool)
    (fpA fpB fpC : String) (dA dB dC : α) (c : Nat)
    (hAB : sim dA dB = true) (hAC : sim dA dC = true) (hBC : sim dB dC = false) :
    ∃ g, 0 < g ∧
      (mark_groups sim [⟨fpA, dA, 0⟩, ⟨fpB, dB, 0⟩, ⟨fpC, dC, 0⟩] c).1.map
        (fun x => x.group_number) = [g, g, g] := by
  refine ⟨c + 1, Nat.succ_pos c, ?_⟩
  simp [mark_groups, outerLoop, innerLoop, hAB, hAC]

theorem mark_groups_anchor_groups_all_three_witness :
    ∃ g, 0 < g ∧
      (mark_groups image_sim [⟨"A", some [false, false], 0⟩,
          ⟨"B", some [false, true], 0⟩, ⟨"C", some [true, false], 0⟩] 0).1.map
        (fun x => x.group_number) = [g, g, g] :=
  mark_groups_anchor_groups_all_three image_sim "A" "B" "C"
    (some [false, false]) (some [false, true]) (some [true, false]) 0
    (by decide) (by decide) (by decide)

/-- C3: after `mark_groups` on a list whose items all start with
`group_number` 0, using a fresh counter, the set of distinct positive group
numbers is exactly {1, ..., k} where k is the final counter value:
contiguous from 1, no gaps, no repeats, and 0 is never emitted. -/
theorem mark_groups_group_ids_contiguous {α : Type} (sim : α → α → Bool)
    (l : List (CompObj α)) (h0 : ∀ x ∈ l, x.group_number = 0) :
    (((mark_groups sim l 0).1.map (fun x => x.group_number)).filter
        (fun g => decide (0 < g))).toFinset
      = Finset.Icc 1 (mark_groups sim l 0).2 := by
  have hb : ∀ x ∈ l, x.group_number ≤ 0 := fun x hx => Nat.le_of_eq (h0 x hx)
  have hbound := outerLoop_bound sim l.length l 0 hb
  ext g
  simp only [List.mem_toFinset, List.mem_filter, List.mem_map, Finset.mem_Icc,
    decide_eq_true_eq]
  constructor
  · rintro ⟨⟨x, hx, rfl⟩, hpos⟩
    have := hbound x (by simpa [mark_groups] using hx)
    simp only [mark_groups]
    omega
  · rintro ⟨hg1, hg2⟩
    have h2 := outerLoop_new_groups sim l.length l 0 hb g (by omega)
      (by simpa [mark_groups] using hg2)
    have h3 : 0 < List.countP (fun z => z.group_number == g)
        (mark_groups sim l 0).1 := by
      simp only [mark_groups]
      omega
    rcases List.countP_pos_iff.mp h3 with ⟨x, hx, hxg⟩
    exact ⟨⟨x, hx, by simpa using hxg⟩, by omega⟩

theorem mark_groups_group_ids_contiguous_witness :
    (((mark_groups image_sim [⟨"A", some [false, false], 0⟩,
          ⟨"B", some [false, false], 0⟩] 0).1.map
        (fun x => x.group_number)).filter (fun g => decide (0 < g))).toFinset
      = Finset.Icc 1 (mark_groups image_sim [⟨"A", some [false, false], 0⟩,
          ⟨"B", some [false, false], 0⟩] 0).2 :=
  mark_groups_group_ids_contiguous image_sim
    [⟨"A", some [false, false], 0⟩, ⟨"B", some [false, false], 0⟩] (by decide)

/-- C8: `mark_groups` returns the list it was given, in order, and may only
change `group_number`: every item's file path and fingerprint payload are
unchanged by the pass. -/
theorem mark_groups_preserves_paths_and_data {α : Type} (sim : α → α → Bool)
    (l : List (CompObj α)) (c : Nat) :
    (mark_groups sim l c).1.map (fun x => (x.file_path, x.data))
      = l.map (fun x => (x.file_path, x.data)) :=
  outerLoop_strip sim l.length l c

/-- C9: after `mark_groups` on a list whose items all start with
`group_number` 0, every positive group number that occurs is carried by at
least two items — no group in the output is a singleton. -/
theorem mark_groups_no_singleton_groups {α : Type} (sim : α → α → Bool)
    (l : List (CompObj α)) (h0 : ∀ x ∈ l, x.group_number = 0)
    (g : Nat) (hg : 0 < g)
    (hex : ∃ x ∈ (mark_groups sim l 0).1, x.group_number = g) :
    2 ≤ List.countP (fun z => z.group_number == g) (mark_groups sim l 0).1 := by
  have hb : ∀ x ∈ l, x.group_number ≤ 0 := fun x hx => Nat.le_of_eq (h0 x hx)
  obtain ⟨x, hx, hxg⟩ := hex
  have hle := outerLoop_bound sim l.length l 0 hb x (by simpa [mark_groups] using hx)
  have hgu : g ≤ (outerLoop sim l.length l 0).2 := by omega
  have := outerLoop_new_groups sim l.length l 0 hb g hg hgu
  simpa [mark_groups] using this

theorem mark_groups_no_singleton_groups_witness :
    2 ≤ List.countP (fun z => z.group_number == 1)
        (mark_groups image_sim [⟨"A", some [false, false], 0⟩,
          ⟨"B", some [false, false], 0⟩] 0).1 :=
  mark_groups_no_singleton_groups image_sim
    [⟨"A", some [false, false], 0⟩, ⟨"B", some [false, false], 0⟩]
    (by decide) 1 (by decide) (by decide)

/-- C4: for fingerprints of equal bit-length the similarity predicate holds
iff the Hamming distance is strictly below `SIMILAR_THRESHOLD`; at exactly
the threshold the fingerprints are not similar, one below they are. -/
theorem is_similar_img_iff_hamming (a b : Fingerprint) (h : a.length = b.length) :
    (is_similar_img a b = true ↔ hammingDistance a b < SIMILAR_THRESHOLD) ∧
    (hammingDistance a b = SIMILAR_THRESHOLD → is_similar_img a b = false) ∧
    (hammingDistance a b = SIMILAR_THRESHOLD - 1 → is_similar_img a b = true) := by
  have hd := image_hash_diff_eq_hamming a b
  refine ⟨by simp [is_similar_img, hd], ?_, ?_⟩
  · intro he
    simp [is_similar_img, hd, he, SIMILAR_THRESHOLD]
  · intro he
    simp [is_similar_img, hd, he, SIMILAR_THRESHOLD]

theorem is_similar_img_iff_hamming_witness :
    is_similar_img [true, false] [false, true] = false ∧
    is_similar_img [true, false] [true, true] = true :=
  ⟨(is_similar_img_iff_hamming [true, false] [false, true] rfl).2.1 (by decide),
   (is_similar_img_iff_hamming [true, false] [true, true] rfl).2.2 (by decide)⟩

/-- C5: for video items with non-empty fingerprint sequences,
`visual_compare_video` is true iff the similarity predicate holds at every
position up to the shorter length (trailing fingerprints of the longer
video are ignored); an empty sequence on either side gives false. -/
theorem visual_compare_video_spec (a b : VideoComparisonObject) :
    (a.data ≠ [] → b.data ≠ [] →
      (visual_compare_video a b = true ↔
        ∀ i < min a.data.length b.data.length,
          is_similar_img (a.data.getD i []) (b.data.getD i []) = true)) ∧
    ((a.data = [] ∨ b.data = []) → visual_compare_video a b = false) := by
  have key : ∀ (xs ys : List Fingerprint), xs.length ≠ 0 → ys.length ≠ 0 →
      (video_sim xs ys = true ↔
        ∀ i < min xs.length ys.length,
          is_similar_img (xs.getD i []) (ys.getD i []) = true) := by
    intro xs ys hx hy
    rw [video_sim, if_neg (by omega)]
    simp only [List.all_eq_true, List.mem_map, id_eq, forall_exists_index,
      and_imp]
    constructor
    · intro hall i hi
      have h1 : i < xs.length := lt_of_lt_of_le hi (min_le_left _ _)
      have h2 : i < ys.length := lt_of_lt_of_le hi (min_le_right _ _)
      have hiz : i < (xs.zip ys).length := by
        simp only [List.length_zip]
        omega
      have happ := hall _ ((xs.zip ys)[i]) (List.getElem_mem hiz) rfl
      have hz : (xs.zip ys)[i] = (xs[i], ys[i]) := List.getElem_zip
      rw [List.getD_eq_getElem?_getD, List.getD_eq_getElem?_getD,
        List.getElem?_eq_getElem h1, List.getElem?_eq_getElem h2]
      rw [hz] at happ
      simpa using happ
    · intro h x p hp hfx
      obtain ⟨i, hiz, rfl⟩ := List.mem_iff_getElem.mp hp
      have hmin : i < min xs.length ys.length := by
        simpa [List.length_zip] using hiz
      have h1 : i < xs.length := lt_of_lt_of_le hmin (min_le_left _ _)
      have h2 : i < ys.length := lt_of_lt_of_le hmin (min_le_right _ _)
      have := h i hmin
      rw [List.getD_eq_getElem?_getD, List.getD_eq_getElem?_getD,
        List.getElem?_eq_getElem h1, List.getElem?_eq_getElem h2] at this
      rw [← hfx]
      simpa [List.getElem_zip] using this
  constructor
  · intro ha hb
    exact key a.data b.data (by simpa using ha) (by simpa using hb)
  · intro h
    rcases h with h | h <;>
      simp [visual_compare_video, video_sim, h]

theorem visual_compare_video_spec_witness :
    visual_compare_video ⟨"a", [[true]], 0⟩ ⟨"b", [[true], [false]], 0⟩ = true ↔
      ∀ i < min (List.length [[true]]) (List.length [[true], [false]]),
        is_similar_img (List.getD [[true]] i []) (List.getD [[true], [false]] i [])
          = true :=
  (visual_compare_video_spec ⟨"a", [[true]], 0⟩ ⟨"b", [[true], [false]], 0⟩).1
    (by decide) (by decide)

theorem image_hash_diff_symm (a b : Fingerprint) :
    image_hash_diff a b = image_hash_diff b a := by
  suffices h : (a.zip b).countP (fun p => !(p.1 == p.2))
      = (b.zip a).countP (fun p => !(p.1 == p.2)) by
    simp [image_hash_diff, h]
  induction a generalizing b with
  | nil => cases b <;> simp
  | cons x xs ih =>
    cases b with
    | nil => simp
    | cons y ys =>
      have hb : (!(x == y)) = (!(y == x)) := by cases x <;> cases y <;> rfl
      simp [List.countP_cons, ih ys, hb]

theorem is_similar_img_symm (a b : Fingerprint) :
    is_similar_img a b = is_similar_img b a := by
  simp [is_similar_img, image_hash_diff_symm a b]

theorem video_flags_symm (xs ys : List Fingerprint) :
    ((xs.zip ys).map (fun p => is_similar_img p.1 p.2)).all id
      = ((ys.zip xs).map (fun p => is_similar_img p.1 p.2)).all id := by
  induction xs generalizing ys with
  | nil => cases ys <;> simp
  | cons x xs ih =>
    cases ys with
    | nil => simp
    | cons y ys =>
      simp [ih ys, is_similar_img_symm x y]

/-- C10: the pairwise comparison predicates are symmetric, both for image
items and for video items. -/
theorem compare_predicates_symmetric :
    (∀ a b : ImageComparisonObject,
      visual_compare_image a b = visual_compare_image b a) ∧
    (∀ a b : VideoComparisonObject,
      visual_compare_video a b = visual_compare_video b a) := by
  constructor
  · intro a b
    simp only [visual_compare_image, image_sim]
    rcases a.data with _ | x <;> rcases b.data with _ | y <;>
      simp [is_similar_img_symm]
  · intro a b
    simp only [visual_compare_video, video_sim]
    by_cases h : a.data.length = 0 ∨ b.data.length = 0
    · rw [if_pos h, if_pos h.symm]
    · rw [if_neg h, if_neg (fun hc => h hc.symm), video_flags_symm]

/-- C7: a selector whose lower-cased form is not a known algorithm name is
not an error: the constructed computer behaves identically, on every image,
to one constructed with the default average-hash selector (the fallback
branch of `HashComputer.__init__` raises nothing and selects `ahash`). -/
theorem hash_computer_unknown_mode_defaults {Img Hash : Type}
    (ahash phash : Img → Hash) (sel : String)
    (h1 : pyLower sel ≠ "ahash") (h2 : pyLower sel ≠ "phash") :
    ∀ img : Img, HashComputer_compute (HashComputer_mode ahash phash sel) img
      = HashComputer_compute (HashComputer_mode ahash phash "ahash") img := by
  intro img
  have e1 : (pyLower sel == "ahash") = false := beq_eq_false_iff_ne.mpr h1
  have e2 : (pyLower sel == "phash") = false := beq_eq_false_iff_ne.mpr h2
  have e3 : pyLower "ahash" = "ahash" := by decide
  simp [HashComputer_mode, func_factory, List.lookup, e1, e2, e3,
    HashComputer_compute]

theorem hash_computer_unknown_mode_defaults_witness :
    HashComputer_compute (HashComputer_mode Nat.succ (fun n : Nat => n + 2) "md5") 7
      = HashComputer_compute
          (HashComputer_mode Nat.succ (fun n : Nat => n + 2) "ahash") 7 :=
  hash_computer_unknown_mode_defaults Nat.succ (fun n : Nat => n + 2) "md5"
    (by decide) (by decide) 7

theorem charListLt_self (cs : List Char) : charListLt cs cs = false := by
  induction cs with
  | nil => rfl
  | cons c cs ih => simp [charListLt, ih, lt_irrefl]

theorem pyKeyLt_self (k : PyKey) : pyKeyLt k k = false := by
  cases k with
  | i n => simp [pyKeyLt]
  | s t => simp [pyKeyLt, charListLt_self]

theorem pyKeyListLt_self (ks : List PyKey) : pyKeyListLt ks ks = false := by
  induction ks with
  | nil => rfl
  | cons k ks ih => simp [pyKeyListLt, pyKeyLt_self, ih]

/-- C6 counterexample: `a.mp4` and `a.avi` are distinct paths whose
tokenized keys coincide (the suffix is stripped), and `sort_path_naturally`
keeps them in input order in both input orders — the tie is not broken by
the full original path string (which would put `a.avi` first both times),
so two distinct paths do compare as exactly equal. -/
theorem sort_path_naturally_ties_not_broken_by_path :
    path_keys "a.mp4" = path_keys "a.avi" ∧ "a.mp4" ≠ "a.avi" ∧
    sort_path_naturally ["a.mp4", "a.avi"] = ["a.mp4", "a.avi"] ∧
    sort_path_naturally ["a.avi", "a.mp4"] = ["a.avi", "a.mp4"] :=
  ⟨by decide, by decide, by decide, by decide⟩

/-- C6 amended: the key ordering of `sort_path_naturally` is deterministic,
but ties in the tokenized keys are not broken by the original path string:
two paths with equal keys compare as exactly equal and keep their input
order (the sort is stable), whichever order they arrive in. -/
theorem sort_path_naturally_stable_on_ties (p q : String)
    (h : path_keys p = path_keys q) :
    sort_path_naturally [p, q] = [p, q] ∧
    sort_path_naturally [q, p] = [q, p] := by
  constructor <;>
    simp [sort_path_naturally, pySorted, sinsert, h, pyKeyListLt_self]

theorem sort_path_naturally_stable_on_ties_witness :
    sort_path_naturally ["a.mp4", "a.avi"] = ["a.mp4", "a.avi"] ∧
    sort_path_naturally ["a.avi", "a.mp4"] = ["a.avi", "a.mp4"] :=
  sort_path_naturally_stable_on_ties "a.mp4" "a.avi" (by decide)
